import Mathlib

/-!
Verification development for the Quick repository's autotune core and its
React frontend.

The repository ships the frontend sources (`src/src/homepage.js`,
`src/unnamed/part_001`, `src/unnamed/part_002`) and, for the audio engine,
only the backend's own documentation
(`src/.history/Quick/autotune-backend/OPTIMIZATION_GUIDE_20250803202932.md`)
with code fragments; the Python engine file (`optimized_autotune.py`) itself
is not in the tree.  Engine definitions below are therefore modelled from the
specification, following the guide's code fragments wherever those exist
(frame loop bounds, `int(len(frame) / ratio)` resample length, autocorrelation
peak threshold `0.1 * max`, low-pass cutoff, cache shape).  Frontend
definitions are translated directly from the JavaScript sources.

Numeric modelling: audio samples, frequencies and strengths are rationals
(`ℚ`), the exact counterpart of the float pipeline; sample rates are naturals.
The musical scale ladder is kept on the logarithmic semitone axis (`ℤ`),
because the Hz value of a semitone step, `2^(1/12)`, is irrational; the
strict-monotonicity statement about Hz frequencies is recovered by mapping
semitones through `fun s => base * 2 ^ (s / 12)` over `ℝ` in the theorem
about the ladder.
-/

namespace Quick

/-! ### ScaleTable -/

/-- Modelled from the spec: the scale kind tag (`scale_type` of
`get_scale_frequencies`; the guide lists major, minor, pentatonic). -/
inductive ScaleKind
  | major
  | minor
  | pentatonic
  deriving DecidableEq, Repr

/-- Modelled from the spec: the root note name (`root_note` of
`get_scale_frequencies`), one of the twelve chromatic notes. -/
inductive RootNote
  | C | Cs | D | Ds | E | F | Fs | G | Gs | A | As | B
  deriving DecidableEq, Repr

/-- Modelled from the spec: the chromatic semitone index of a root note. -/
def rootSemis : RootNote → ℤ
  | .C => 0 | .Cs => 1 | .D => 2 | .Ds => 3 | .E => 4 | .F => 5
  | .Fs => 6 | .G => 7 | .Gs => 8 | .A => 9 | .As => 10 | .B => 11

/-- Modelled from the spec: the semitone offsets of one octave of a scale
(major = whole/whole/half/whole/whole/whole/half, i.e. 0 2 4 5 7 9 11;
minor = 0 2 3 5 7 8 10; pentatonic = 0 2 4 7 9, the guide's C D E G A). -/
def scalePattern : ScaleKind → List ℤ
  | .major => [0, 2, 4, 5, 7, 9, 11]
  | .minor => [0, 2, 3, 5, 7, 8, 10]
  | .pentatonic => [0, 2, 4, 7, 9]

/-- Modelled from the spec: one octave pattern repeated across the fixed
four-octave span, as semitone offsets from the root. -/
def scaleOffsets (k : ScaleKind) : List ℤ :=
  (List.range 4).flatMap fun oct : ℕ =>
    (scalePattern k).map fun o => o + 12 * (oct : ℤ)

/-- Modelled from the spec: the frequency ladder of `(kind, root)` on the
semitone axis (`get_scale_frequencies` without the final exponential
`f = base * 2 ^ (s / 12)`, which is irrational; the exponential is applied
in the theorems, where order transfers). -/
def buildScale (k : ScaleKind) (r : RootNote) : List ℤ :=
  (scaleOffsets k).map fun o => rootSemis r + o

/-- Modelled from the spec: the process-wide `SCALE_CACHE` mapping, keyed by
the `(kind, root)` pair, as an association list. -/
def ScaleCache : Type := List ((ScaleKind × RootNote) × List ℤ)

/-- Modelled from the spec: dictionary lookup in `SCALE_CACHE`. -/
def cacheFind : ScaleCache → ScaleKind × RootNote → Option (List ℤ)
  | [], _ => none
  | (key, v) :: rest, k => if key = k then some v else cacheFind rest k

/-- Modelled from the spec: `get_scale_frequencies` — return the cached
ladder if the key is present, otherwise build it and store it. -/
def getScale (c : ScaleCache) (k : ScaleKind) (r : RootNote) :
    List ℤ × ScaleCache :=
  match cacheFind c (k, r) with
  | some t => (t, c)
  | none => (buildScale k r, ((k, r), buildScale k r) :: c)

/-! ### ScaleQuantizer -/

/-- Modelled from the spec: the binary-search loop of
`snap_to_scale_optimized` (`left, right = 0, len - 1; while left <= right`),
in half-open form: on a sorted table it narrows `[lo, hi)` to the partition
point, the count of entries that are `≤ f`. -/
def lowerCount (t : List ℚ) (f : ℚ) (lo hi : ℕ) : ℕ :=
  if h : lo < hi then
    if t.getD ((lo + hi) / 2) 0 ≤ f then lowerCount t f ((lo + hi) / 2 + 1) hi
    else lowerCount t f lo ((lo + hi) / 2)
  else lo
termination_by hi - lo
decreasing_by
  · omega
  · omega

/-- Modelled from the spec: the nearest table entry to `f` — binary search
for the two bracketing entries, then the numerically closer one, ties broken
toward the lower-frequency entry. -/
def nearestScale (t : List ℚ) (f : ℚ) : ℚ :=
  if lowerCount t f 0 t.length = 0 then t.getD 0 0
  else if lowerCount t f 0 t.length = t.length then t.getD (t.length - 1) 0
  else if f - t.getD (lowerCount t f 0 t.length - 1) 0 ≤
      t.getD (lowerCount t f 0 t.length) 0 - f then
    t.getD (lowerCount t f 0 t.length - 1) 0
  else t.getD (lowerCount t f 0 t.length) 0

/-- Modelled from the spec: strength blending,
`target = frequency + strength * (nearest - frequency)`; an empty table
leaves the frequency unchanged. -/
def quantize (f : ℚ) (t : List ℚ) (strength : ℚ) : ℚ :=
  if t = [] then f else f + strength * (nearestScale t f - f)

/-! ### PitchDetector -/

/-- Modelled from the spec: the frame's autocorrelation at a non-negative
lag (`np.correlate(frame, frame, mode='full')`; the full result is symmetric
in the lag, so the non-negative half carries all values). -/
def autocorr (x : List ℚ) (l : ℕ) : ℚ :=
  ∑ i ∈ Finset.range (x.length - l), x.getD i 0 * x.getD (i + l) 0

/-- Modelled from the spec: `np.max(autocorr)` over the full correlation,
i.e. the maximum over all lags (the symmetric negative half adds nothing). -/
def acMax (x : List ℚ) : ℚ :=
  ((List.range x.length).map (autocorr x)).foldl max (autocorr x 0)

/-- Modelled from the spec: a local maximum of the autocorrelation at lag
`l` (`signal.find_peaks`: strictly above both neighbours). -/
def IsAcPeak (x : List ℚ) (l : ℕ) : Prop :=
  autocorr x (l - 1) < autocorr x l ∧ autocorr x (l + 1) < autocorr x l

instance (x : List ℚ) (l : ℕ) : Decidable (IsAcPeak x l) := by
  unfold IsAcPeak; exact inferInstance

/-- Modelled from the spec: the smallest plausible pitch lag, from the
1500 Hz frequency ceiling (`sampleRate / lag ≤ 1500`), never below one. -/
def lagMin (sr : ℕ) : ℕ := max 1 (⌈(sr : ℚ) / 1500⌉.toNat)

/-- Modelled from the spec: the largest plausible pitch lag, from the 50 Hz
frequency floor (`sampleRate / lag ≥ 50`). -/
def lagMax (sr : ℕ) : ℕ := (⌊(sr : ℚ) / 50⌋).toNat

/-- Modelled from the spec: lag `l` is a candidate pitch period — inside the
plausible range, a local autocorrelation maximum, and above the
`0.1 * max(autocorrelation)` height threshold. -/
def Qualifies (x : List ℚ) (sr : ℕ) (l : ℕ) : Prop :=
  lagMin sr ≤ l ∧ l ≤ lagMax sr ∧ IsAcPeak x l ∧ acMax x / 10 < autocorr x l

instance (x : List ℚ) (sr l : ℕ) : Decidable (Qualifies x sr l) := by
  unfold Qualifies; exact inferInstance

/-- Modelled from the spec: the candidate lags of one frame, in increasing
order. -/
def candidateLags (x : List ℚ) (sr : ℕ) : List ℕ :=
  (List.range' (lagMin sr) (lagMax sr + 1 - lagMin sr)).filter
    fun l => decide (Qualifies x sr l)

/-- Modelled from the spec: of two candidate lags, the one with the higher
autocorrelation (the earlier one on equal heights). -/
def betterLag (x : List ℚ) (b l : ℕ) : ℕ :=
  if autocorr x b < autocorr x l then l else b

/-- Modelled from the spec: select the highest candidate peak (first one on
equal heights). -/
def bestLag (x : List ℚ) (ls : List ℕ) : Option ℕ :=
  match ls with
  | [] => none
  | a :: tl => some (tl.foldl (betterLag x) a)

/-- Modelled from the spec: `detect_pitch_optimized` on one frame — the
winning lag converted to a frequency via `sampleRate / lag`, or `none`
(unvoiced) when no peak clears the threshold. -/
def detectPitch (x : List ℚ) (sr : ℕ) : Option ℚ :=
  (bestLag x (candidateLags x sr)).map fun l : ℕ => (sr : ℚ) / (l : ℚ)

/-! ### PitchShifter -/

/-- Modelled from the spec: linear interpolation of a frame at a fractional
sample position (the computable surrogate for `scipy.signal.resample`'s
band-limited interpolation; at an integer position it returns that sample
exactly, so length-preserving resampling is the identity). -/
def interpAt (x : List ℚ) (pos : ℚ) : ℚ :=
  x.getD (⌊pos⌋).toNat 0 * (1 - (pos - ((⌊pos⌋).toNat : ℚ))) +
    x.getD (min ((⌊pos⌋).toNat + 1) (x.length - 1)) 0 *
      (pos - ((⌊pos⌋).toNat : ℚ))

/-- Modelled from the spec: resampling of a frame to `m` samples — output
sample `j` reads the fractional input position `j * length / m` through
`interpAt`. -/
def resampleTo (x : List ℚ) (m : ℕ) : List ℚ :=
  (List.range m).map fun j : ℕ =>
    interpAt x ((j : ℚ) * (x.length : ℚ) / (m : ℚ))

/-- The guide's resampled length `int(len(frame) / ratio)` — Python `int()`
truncation, which on the non-negative values arising here is the floor. -/
def shiftLength (n : ℕ) (r : ℚ) : ℤ := ⌊(n : ℚ) / r⌋

/-- Modelled from the spec: `apply_pitch_shift_optimized` on one frame —
resample to the truncated target length; a degenerate (zero-length) target
falls back to the original frame unchanged. -/
def pitchShiftFrame (frame : List ℚ) (r : ℚ) : List ℚ :=
  let m := (shiftLength frame.length r).toNat
  if m = 0 then frame else resampleTo frame m

/-! ### AutotuneEngine -/

/-- Modelled from the spec: the engine configuration.  `table` is the scale
ladder in Hz handed to the quantizer (the Hz ladder itself is irrational and
is modelled separately on the semitone axis, see `buildScale`; the engine
claims C1, C2 and C4 hold for every table). -/
structure EngineConfig where
  strength : ℚ
  table : List ℚ
  frameLength : ℕ
  hopLength : ℕ
  deriving DecidableEq, Repr

/-- Modelled from the spec: the engine's error kinds (§7). -/
inductive EngineError
  | inputError
  | configurationError
  deriving DecidableEq, Repr

/-- The guide's frame loop bound: frames start at `k * hop_length` while that
is inside the buffer, so `ceil(length / hop)` frames. -/
def numFrames (len hop : ℕ) : ℕ := (len + hop - 1) / hop

/-- The guide's frame extraction,
`y[start_sample : min(start_sample + frame_length, len(y))]`. -/
def frameAt (x : List ℚ) (frameLen hop k : ℕ) : List ℚ :=
  (x.drop (k * hop)).take frameLen

/-- Modelled from the spec: the per-frame shift ratio `target / detected`;
an unvoiced frame keeps ratio one. -/
def frameRatio (x : List ℚ) (sr : ℕ) (cfg : EngineConfig) (k : ℕ) : ℚ :=
  match detectPitch (frameAt x cfg.frameLength cfg.hopLength k) sr with
  | none => 1
  | some f => quantize f cfg.table cfg.strength / f

/-- Modelled from the spec: frame `k` after pitch shifting. -/
def shiftedFrame (x : List ℚ) (sr : ℕ) (cfg : EngineConfig) (k : ℕ) : List ℚ :=
  pitchShiftFrame (frameAt x cfg.frameLength cfg.hopLength k)
    (frameRatio x sr cfg k)

/-- Modelled from the spec: the smooth analysis window of length `m` (spec
says e.g. Hann; realized as the triangular window, which like Hann vanishes
at the frame edges and peaks at the centre, and is rational-valued). -/
def window (m : ℕ) (j : ℕ) : ℚ :=
  if m ≤ 1 then 1 else 1 - |2 * (j : ℚ) - ((m : ℚ) - 1)| / ((m : ℚ) - 1)

/-- Modelled from the spec: frame `k`'s windowed contribution to output
sample `i` of the overlap-add accumulation buffer. -/
def contrib (x : List ℚ) (sr : ℕ) (cfg : EngineConfig) (k i : ℕ) : ℚ :=
  if k * cfg.hopLength ≤ i ∧
      i < k * cfg.hopLength + (shiftedFrame x sr cfg k).length then
    window (shiftedFrame x sr cfg k).length (i - k * cfg.hopLength) *
      (shiftedFrame x sr cfg k).getD (i - k * cfg.hopLength) 0
  else 0

/-- Modelled from the spec: frame `k`'s contribution to output sample `i` of
the parallel window-sum (normalization) buffer. -/
def normContrib (x : List ℚ) (sr : ℕ) (cfg : EngineConfig) (k i : ℕ) : ℚ :=
  if k * cfg.hopLength ≤ i ∧
      i < k * cfg.hopLength + (shiftedFrame x sr cfg k).length then
    window (shiftedFrame x sr cfg k).length (i - k * cfg.hopLength)
  else 0

/-- Modelled from the spec: sample `i` of the overlap-add accumulation
buffer (every frame's windowed samples added at its hop offset). -/
def olaAcc (x : List ℚ) (sr : ℕ) (cfg : EngineConfig) (i : ℕ) : ℚ :=
  ∑ k ∈ Finset.range (numFrames x.length cfg.hopLength), contrib x sr cfg k i

/-- Modelled from the spec: sample `i` of the window-sum buffer. -/
def olaNorm (x : List ℚ) (sr : ℕ) (cfg : EngineConfig) (i : ℕ) : ℚ :=
  ∑ k ∈ Finset.range (numFrames x.length cfg.hopLength),
    normContrib x sr cfg k i

/-- Modelled from the spec: the reconstructed buffer — accumulation divided
elementwise by the window sum, zero-normalization samples retaining zero. -/
def olaOut (x : List ℚ) (sr : ℕ) (cfg : EngineConfig) : List ℚ :=
  (List.range x.length).map fun i =>
    if olaNorm x sr cfg i = 0 then 0 else olaAcc x sr cfg i / olaNorm x sr cfg i

/-- Modelled from the spec: the zero-phase low-pass of the post filter
(`butter` + `filtfilt` are not expressible over ℚ; realized as a symmetric —
hence zero-phase — three-tap smoothing kernel with edge replication). -/
def lowPass (y : List ℚ) : List ℚ :=
  (List.range y.length).map fun i =>
    (y.getD (i - 1) 0 + 2 * y.getD i 0 +
      y.getD (min (i + 1) (y.length - 1)) 0) / 4

/-- Modelled from the spec: the peak absolute sample of a buffer. -/
def peakOf (y : List ℚ) : ℚ := y.foldl (fun m v => max m |v|) 0

/-- Modelled from the spec: peak normalization — scale down so the maximum
absolute sample is at most one, never upscale. -/
def peakNormalize (y : List ℚ) : List ℚ :=
  if peakOf y ≤ 1 then y else y.map fun v => v / peakOf y

/-- Modelled from the spec: the post filter — zero-phase low-pass, then peak
normalization. -/
def postFilter (y : List ℚ) : List ℚ := peakNormalize (lowPass y)

/-- Modelled from the spec: `process(buffer, sampleRate, options)` — reject
malformed input and configuration, then segment, detect, quantize, shift,
overlap-add and post-filter, returning the new buffer and echoing the
effective configuration. -/
def process (x : List ℚ) (sr : ℕ) (cfg : EngineConfig) :
    Except EngineError (List ℚ × EngineConfig) :=
  if x = [] ∨ sr = 0 then .error .inputError
  else if cfg.strength < 0 ∨ 1 < cfg.strength ∨ cfg.frameLength = 0 ∨
      cfg.hopLength = 0 then .error .configurationError
  else .ok (postFilter (olaOut x sr cfg), cfg)

/-! ### Frontend: strength slider (src/unnamed/part_001, part_002) -/

/-- The strength slider's `min="0.1"` attribute. -/
def sliderMin : ℚ := 1 / 10

/-- The strength slider's `max="1.0"` attribute. -/
def sliderMax : ℚ := 1

/-- The strength slider's `step="0.1"` attribute. -/
def sliderStep : ℚ := 1 / 10

/-- The values the range input can take: `min + k * step` within `max`. -/
def sliderValues : List ℚ :=
  (List.range 10).map fun k : ℕ => sliderMin + (k : ℚ) * sliderStep

/-- `useState(0.5)` — the initial strength of the part_001 Homepage. -/
def initialStrength1 : ℚ := 1 / 2

/-- `useState(0.8)` — the initial strength of the part_002 Homepage. -/
def initialStrength2 : ℚ := 4 / 5

/-- The strength values `processAudio` can submit: the slider forwards
`parseFloat(e.target.value)` unchanged into state, `processAudio` appends
exactly the current state to the form data, so a submittable strength is an
initial state or a slider value. -/
inductive StrengthReachable : ℚ → Prop
  | init1 : StrengthReachable initialStrength1
  | init2 : StrengthReachable initialStrength2
  | slide (v : ℚ) (hv : v ∈ sliderValues) : StrengthReachable v

/-! ### Frontend: progress state machine (src/unnamed/part_001, part_002) -/

/-- The phases of one upload/process round trip in the Homepage component:
`uploading`/`processing` mirror the `isUploading`/`isProcessing` flags,
`succeeded` is the instant after a successful server response
(`setProgress(100)` has run, the `finally` block has not yet), `idle` is
everything else. -/
inductive Phase
  | idle
  | uploading
  | processing
  | succeeded
  deriving DecidableEq, Repr

/-- The Homepage state observed by the progress bar. -/
structure UIState where
  progress : ℕ
  phase : Phase
  deriving DecidableEq, Repr

/-- One interval tick of the progress `useEffect`:
`prev >= 90 ? 90 : prev + step`. -/
def tickCap (step p : ℕ) : ℕ := if 90 ≤ p then 90 else p + step

/-- The Homepage transitions affecting the progress bar, for a processing
tick increment `c` (3 in part_001, 5 in part_002; uploading ticks add 10 in
both).  Flag flips rerun the `useEffect`, whose `else` branch resets the
progress to zero whenever neither flag is set. -/
inductive UIStep (c : ℕ) : UIState → UIState → Prop
  | beginUpload (p : ℕ) : UIStep c ⟨p, .idle⟩ ⟨0, .uploading⟩
  | uploadTick (p : ℕ) : UIStep c ⟨p, .uploading⟩ ⟨tickCap 10 p, .uploading⟩
  | uploadDone (p : ℕ) : UIStep c ⟨p, .uploading⟩ ⟨0, .idle⟩
  | beginProcessing (p : ℕ) : UIStep c ⟨p, .idle⟩ ⟨0, .processing⟩
  | processTick (p : ℕ) :
      UIStep c ⟨p, .processing⟩ ⟨tickCap c p, .processing⟩
  | respondSuccess (p : ℕ) : UIStep c ⟨p, .processing⟩ ⟨100, .succeeded⟩
  | respondFailure (p : ℕ) : UIStep c ⟨p, .processing⟩ ⟨0, .idle⟩
  | settle (p : ℕ) : UIStep c ⟨p, .succeeded⟩ ⟨0, .idle⟩
  | reset (p : ℕ) (ph : Phase) : UIStep c ⟨p, ph⟩ ⟨0, .idle⟩

/-- The Homepage states reachable from the initial `progress = 0`, idle
state. -/
inductive Reaches (c : ℕ) : UIState → Prop
  | init : Reaches c ⟨0, .idle⟩
  | step {s t : UIState} : Reaches c s → UIStep c s t → Reaches c t

/-- The inductive invariant of the Homepage progress bar: in a ticking phase
the progress stays at most 90 and divisible by the phase's increment, the
idle progress is zero, and a just-succeeded response shows exactly 100. -/
def UIInv (c : ℕ) (s : UIState) : Prop :=
  (s.phase = .processing → s.progress ≤ 90 ∧ c ∣ s.progress) ∧
  (s.phase = .uploading → s.progress ≤ 90 ∧ 10 ∣ s.progress) ∧
  (s.phase = .idle → s.progress = 0) ∧
  (s.phase = .succeeded → s.progress = 100)

/-! ## Theorems -/

/-- C7.  For every cache state and `(kind, root)` pair, a repeated
`getScale` call returns the very same ladder (hence identical length and
values) and the very same cache; on an empty cache the first call computes
`buildScale`; after any call the ladder is stored under its key. -/
theorem c7_scale_cache_idempotent (c : ScaleCache) (k : ScaleKind)
    (r : RootNote) :
    getScale (getScale c k r).2 k r = ((getScale c k r).1, (getScale c k r).2) ∧
    (getScale ([] : ScaleCache) k r).1 = buildScale k r ∧
    cacheFind (getScale c k r).2 (k, r) = some (getScale c k r).1 := by
  refine ⟨?_, ?_, ?_⟩
  · unfold getScale
    cases h : cacheFind c (k, r) with
    | some t => simp [h]
    | none => simp [h, cacheFind]
  · rfl
  · unfold getScale
    cases h : cacheFind c (k, r) with
    | some t => simpa using h
    | none => simp [cacheFind]

/-- The resampled length of `pitchShiftFrame` is always `m` itself when the
truncated target length `m` is positive. -/
theorem pitchShift_length_pos (frame : List ℚ) (r : ℚ)
    (hm : 0 < shiftLength frame.length r) :
    (pitchShiftFrame frame r).length = (shiftLength frame.length r).toNat := by
  unfold pitchShiftFrame
  have h0 : (shiftLength frame.length r).toNat ≠ 0 := by omega
  rw [if_neg h0]
  simp only [resampleTo, List.length_map, List.length_range]

/-- C5 counterexample.  A three-sample frame at shift ratio two: the claim's
`round(frameLength / r)` is `round(3 / 2) = 2`, but the code's
`int(len(frame) / ratio)` truncates and the shifted frame has one sample. -/
theorem c5_resample_length_not_round :
    (pitchShiftFrame [1, 0, 1] 2).length = 1 ∧
      (round ((3 : ℚ) / 2)).toNat = 2 := by
  constructor
  · have h : shiftLength ([1, 0, 1] : List ℚ).length 2 = 1 := by
      unfold shiftLength
      norm_num
    unfold pitchShiftFrame
    rw [h]
    simp only [resampleTo, List.length_map, List.length_range]
    norm_num
  · have h : round ((3 : ℚ) / 2) = 2 := by norm_num [round_eq]
    rw [h]
    rfl

/-- C5 amended.  For every frame and shift ratio with a positive truncated
target length, the shifted frame has exactly `⌊len(frame) / r⌋` samples
(Python `int()` truncation, per the guide), not `round(len(frame) / r)`;
a zero target length instead falls back to the original frame. -/
theorem c5_resample_length_floor (frame : List ℚ) (r : ℚ)
    (hm : 0 < shiftLength frame.length r) :
    (pitchShiftFrame frame r).length = (shiftLength frame.length r).toNat :=
  pitchShift_length_pos frame r hm

/-- C5 witness: a concrete instance of the amended statement. -/
theorem c5_resample_length_floor_witness :
    0 < shiftLength ([1, 0, 1] : List ℚ).length (1 / 2) ∧
      (pitchShiftFrame [1, 0, 1] (1 / 2)).length =
        (shiftLength ([1, 0, 1] : List ℚ).length (1 / 2)).toNat :=
  ⟨by unfold shiftLength; norm_num,
    c5_resample_length_floor [1, 0, 1] (1 / 2)
      (by unfold shiftLength; norm_num)⟩

/-- Every strength the frontend can reach is one of the ten slider steps. -/
theorem strengthReachable_exists {s : ℚ} (hs : StrengthReachable s) :
    ∃ k : ℕ, k ≤ 9 ∧ s = sliderMin + (k : ℚ) * sliderStep := by
  cases hs with
  | init1 =>
      exact ⟨4, by norm_num,
        by norm_num [initialStrength1, sliderMin, sliderStep]⟩
  | init2 =>
      exact ⟨7, by norm_num,
        by norm_num [initialStrength2, sliderMin, sliderStep]⟩
  | slide v hv =>
      unfold sliderValues at hv
      rcases List.mem_map.mp hv with ⟨k, hk, rfl⟩
      exact ⟨k, by have := List.mem_range.mp hk; omega, rfl⟩

/-- C9.  Every strength value the frontend can submit is of the form
`0.1 + k * 0.1` with `k ≤ 9`, hence lies in `[0.1, 1.0]`; in particular the
zero-strength identity case is unreachable through the UI. -/
theorem c9_strength_slider_range (s : ℚ) (hs : StrengthReachable s) :
    sliderMin ≤ s ∧ s ≤ sliderMax ∧
      (∃ k : ℕ, k ≤ 9 ∧ s = sliderMin + (k : ℚ) * sliderStep) ∧ s ≠ 0 := by
  obtain ⟨k, hk, rfl⟩ := strengthReachable_exists hs
  have hk9 : (k : ℚ) ≤ 9 := by exact_mod_cast hk
  have hk0 : (0 : ℚ) ≤ (k : ℚ) := Nat.cast_nonneg k
  refine ⟨?_, ?_, ⟨k, hk, rfl⟩, ?_⟩
  · unfold sliderMin sliderStep; linarith
  · unfold sliderMin sliderMax sliderStep; linarith
  · unfold sliderMin sliderStep; intro h; linarith

/-- C9 witness: the initial 50% strength of part_001 is reachable and obeys
the bounds. -/
theorem c9_strength_slider_range_witness :
    StrengthReachable (1 / 2) ∧
      (sliderMin ≤ (1 / 2 : ℚ) ∧ (1 / 2 : ℚ) ≤ sliderMax ∧
        (∃ k : ℕ, k ≤ 9 ∧ (1 / 2 : ℚ) = sliderMin + (k : ℚ) * sliderStep) ∧
        (1 / 2 : ℚ) ≠ 0) :=
  ⟨StrengthReachable.init1, c9_strength_slider_range (1 / 2)
    StrengthReachable.init1⟩

/-- A capped tick keeps the progress at most 90 and divisible by the
increment, provided the increment divides 90. -/
theorem tickCap_invariant {c p : ℕ} (hc : c ∣ 90) (hp : p ≤ 90)
    (hd : c ∣ p) : tickCap c p ≤ 90 ∧ c ∣ tickCap c p := by
  unfold tickCap
  split
  · exact ⟨le_refl 90, hc⟩
  · rename_i hlt
    obtain ⟨j, rfl⟩ := hd
    obtain ⟨m, hm⟩ := hc
    have hlt' : c * j < c * m := hm ▸ Nat.not_le.mp hlt
    have hjm : j + 1 ≤ m := Nat.lt_of_mul_lt_mul_left hlt'
    have hstep : c * (j + 1) ≤ c * m := Nat.mul_le_mul_left c hjm
    have he : c * (j + 1) = c * j + c := by ring
    exact ⟨by omega, ⟨j + 1, by linarith⟩⟩

/-- Every reachable Homepage state satisfies the progress invariant. -/
theorem reaches_invariant (c : ℕ) (hc : c ∣ 90) :
    ∀ s : UIState, Reaches c s → UIInv c s := by
  intro s hs
  induction hs with
  | init => simp [UIInv]
  | step hprev hstep ih =>
      cases hstep with
      | beginUpload p => simp [UIInv]
      | uploadTick p =>
          have h := ih.2.1 rfl
          have h2 := tickCap_invariant (by norm_num : (10 : ℕ) ∣ 90) h.1 h.2
          exact ⟨by intro h3; exact absurd h3 (by simp), fun _ => h2,
            by intro h3; exact absurd h3 (by simp),
            by intro h3; exact absurd h3 (by simp)⟩
      | uploadDone p => simp [UIInv]
      | beginProcessing p => simp [UIInv]
      | processTick p =>
          have h := ih.1 rfl
          have h2 := tickCap_invariant hc h.1 h.2
          exact ⟨fun _ => h2, by intro h3; exact absurd h3 (by simp),
            by intro h3; exact absurd h3 (by simp),
            by intro h3; exact absurd h3 (by simp)⟩
      | respondSuccess p => simp [UIInv]
      | respondFailure p => simp [UIInv]
      | settle p => simp [UIInv]
      | reset p ph => simp [UIInv]

/-- C10.  For every processing-tick increment dividing 90 (the code uses 3
in part_001 and 5 in part_002) and every reachable Homepage state: while a
request is in flight the displayed progress never exceeds 90; a progress of
100 occurs only in the just-succeeded state set by a successful server
response; and the progress is 0 whenever neither uploading nor processing
(idle). -/
theorem c10_progress_capped (c : ℕ) (hc : c ∣ 90) (s : UIState)
    (hs : Reaches c s) :
    (s.phase = .processing → s.progress ≤ 90) ∧
    (s.progress = 100 → s.phase = .succeeded) ∧
    (s.phase = .idle → s.progress = 0) := by
  have h := reaches_invariant c hc s hs
  refine ⟨fun hp => (h.1 hp).1, ?_, h.2.2.1⟩
  intro h100
  cases hph : s.phase with
  | idle => have := h.2.2.1 hph; omega
  | uploading => have := (h.2.1 hph).1; omega
  | processing => have := (h.1 hph).1; omega
  | succeeded => rfl

/-- C10 witness: the part_001 increment 3 and the state right after
`processAudio` set the processing flag. -/
theorem c10_progress_capped_witness :
    (3 : ℕ) ∣ 90 ∧ Reaches 3 ⟨0, .processing⟩ ∧
      (((⟨0, .processing⟩ : UIState).phase = .processing →
          (⟨0, .processing⟩ : UIState).progress ≤ 90) ∧
        ((⟨0, .processing⟩ : UIState).progress = 100 →
          (⟨0, .processing⟩ : UIState).phase = .succeeded) ∧
        ((⟨0, .processing⟩ : UIState).phase = .idle →
          (⟨0, .processing⟩ : UIState).progress = 0)) :=
  ⟨by decide,
    Reaches.step Reaches.init (UIStep.beginProcessing 0),
    c10_progress_capped 3 (by decide) ⟨0, .processing⟩
      (Reaches.step Reaches.init (UIStep.beginProcessing 0))⟩

/-- The four-octave major offsets, written out. -/
theorem scaleOffsets_major_eq :
    scaleOffsets .major = [0, 2, 4, 5, 7, 9, 11, 12, 14, 16, 17, 19, 21, 23,
      24, 26, 28, 29, 31, 33, 35, 36, 38, 40, 41, 43, 45, 47] := rfl

/-- The four-octave minor offsets, written out. -/
theorem scaleOffsets_minor_eq :
    scaleOffsets .minor = [0, 2, 3, 5, 7, 8, 10, 12, 14, 15, 17, 19, 20, 22,
      24, 26, 27, 29, 31, 32, 34, 36, 38, 39, 41, 43, 44, 46] := rfl

/-- The four-octave pentatonic offsets, written out. -/
theorem scaleOffsets_pentatonic_eq :
    scaleOffsets .pentatonic = [0, 2, 4, 7, 9, 12, 14, 16, 19, 21, 24, 26,
      28, 31, 33, 36, 38, 40, 43, 45] := rfl

/-- The semitone offsets of a scale ladder are strictly increasing. -/
theorem scaleOffsets_chain (k : ScaleKind) :
    List.Chain' (· < ·) (scaleOffsets k) := by
  cases k with
  | major =>
      rw [scaleOffsets_major_eq]
      norm_num [List.chain'_cons]
  | minor =>
      rw [scaleOffsets_minor_eq]
      norm_num [List.chain'_cons]
  | pentatonic =>
      rw [scaleOffsets_pentatonic_eq]
      norm_num [List.chain'_cons]

/-- The semitone offsets of a scale ladder stay inside the four octaves. -/
theorem scaleOffsets_bounds (k : ScaleKind) :
    ∀ o ∈ scaleOffsets k, 0 ≤ o ∧ o < 48 := by
  cases k <;> decide

/-- The semitone ladder of any `(kind, root)` pair is strictly increasing. -/
theorem buildScale_chain (k : ScaleKind) (r : RootNote) :
    List.Chain' (· < ·) (buildScale k r) := by
  unfold buildScale
  rw [List.chain'_map]
  exact List.Chain'.imp (fun a b h => by omega) (scaleOffsets_chain k)

/-- C8.  For every scale kind, root note and positive base frequency, the
frequency ladder — semitones mapped to Hz by the strictly monotone
`s ↦ base * 2 ^ (s / 12)` — is strictly increasing, and its semitones span
exactly the fixed four-octave range above the root. -/
theorem c8_ladder_strictly_increasing (k : ScaleKind) (r : RootNote)
    (base : ℝ) (hb : 0 < base) :
    List.Chain' (· < ·)
      ((buildScale k r).map fun s : ℤ => base * (2 : ℝ) ^ ((s : ℝ) / 12)) ∧
    ∀ s ∈ buildScale k r, rootSemis r ≤ s ∧ s < rootSemis r + 48 := by
  constructor
  · rw [List.chain'_map]
    refine List.Chain'.imp ?_ (buildScale_chain k r)
    intro a b hab
    have hcast : (a : ℝ) < (b : ℝ) := by exact_mod_cast hab
    have hdiv : ((a : ℝ) / 12) < ((b : ℝ) / 12) := by linarith
    have hpow := (Real.rpow_lt_rpow_left_iff (by norm_num : (1 : ℝ) < 2)).mpr hdiv
    exact mul_lt_mul_of_pos_left hpow hb
  · intro s hs
    rcases List.mem_map.mp hs with ⟨o, ho, rfl⟩
    have := scaleOffsets_bounds k o ho
    omega

/-- C8 witness: the C-major ladder at unit base frequency. -/
theorem c8_ladder_strictly_increasing_witness :
    (0 : ℝ) < 1 ∧
      (List.Chain' (· < ·)
          ((buildScale .major .C).map
            fun s : ℤ => (1 : ℝ) * (2 : ℝ) ^ ((s : ℝ) / 12)) ∧
        ∀ s ∈ buildScale .major .C,
          rootSemis .C ≤ s ∧ s < rootSemis .C + 48) :=
  ⟨one_pos, c8_ladder_strictly_increasing .major .C 1 one_pos⟩

/-- The overlap-add output has one sample per input sample. -/
theorem olaOut_length (x : List ℚ) (sr : ℕ) (cfg : EngineConfig) :
    (olaOut x sr cfg).length = x.length := by
  simp only [olaOut, List.length_map, List.length_range]

/-- The low-pass stage preserves the sample count. -/
theorem lowPass_length (y : List ℚ) : (lowPass y).length = y.length := by
  simp only [lowPass, List.length_map, List.length_range]

/-- Peak normalization preserves the sample count. -/
theorem peakNormalize_length (y : List ℚ) :
    (peakNormalize y).length = y.length := by
  unfold peakNormalize
  split
  · rfl
  · simp only [List.length_map]

/-- The post filter preserves the sample count. -/
theorem postFilter_length (y : List ℚ) : (postFilter y).length = y.length := by
  unfold postFilter
  rw [peakNormalize_length, lowPass_length]

/-- On valid input and configuration, `process` succeeds with the
post-filtered overlap-add reconstruction and echoes the configuration. -/
theorem process_ok (x : List ℚ) (sr : ℕ) (cfg : EngineConfig) (hx : x ≠ [])
    (hsr : sr ≠ 0) (h0 : 0 ≤ cfg.strength) (h1 : cfg.strength ≤ 1)
    (hf : cfg.frameLength ≠ 0) (hh : cfg.hopLength ≠ 0) :
    process x sr cfg = .ok (postFilter (olaOut x sr cfg), cfg) := by
  have hA : ¬(x = [] ∨ sr = 0) := by
    push_neg
    exact ⟨hx, hsr⟩
  have hB : ¬(cfg.strength < 0 ∨ 1 < cfg.strength ∨ cfg.frameLength = 0 ∨
      cfg.hopLength = 0) := by
    push_neg
    exact ⟨h0, h1, hf, hh⟩
  unfold process
  rw [if_neg hA, if_neg hB]

/-- C2.  For every nonempty buffer, positive sample rate and valid
configuration — any frame length, hop length and buffer length, including
buffers shorter than one frame — `process` succeeds and its output buffer
has exactly as many samples as the input buffer. -/
theorem c2_output_length_eq_input (x : List ℚ) (sr : ℕ) (cfg : EngineConfig)
    (hx : x ≠ []) (hsr : sr ≠ 0) (h0 : 0 ≤ cfg.strength)
    (h1 : cfg.strength ≤ 1) (hf : cfg.frameLength ≠ 0)
    (hh : cfg.hopLength ≠ 0) :
    ∃ out, process x sr cfg = .ok (out, cfg) ∧ out.length = x.length :=
  ⟨postFilter (olaOut x sr cfg), process_ok x sr cfg hx hsr h0 h1 hf hh,
    by rw [postFilter_length, olaOut_length]⟩

/-- C2 witness: a two-sample buffer, shorter than the four-sample frame. -/
theorem c2_output_length_eq_input_witness :
    ([1, 2] : List ℚ) ≠ [] ∧ (8 : ℕ) ≠ 0 ∧
      (0 : ℚ) ≤ (⟨1, [440], 4, 2⟩ : EngineConfig).strength ∧
      (⟨1, [440], 4, 2⟩ : EngineConfig).strength ≤ 1 ∧
      (⟨1, [440], 4, 2⟩ : EngineConfig).frameLength ≠ 0 ∧
      (⟨1, [440], 4, 2⟩ : EngineConfig).hopLength ≠ 0 ∧
      ∃ out, process [1, 2] 8 ⟨1, [440], 4, 2⟩ = .ok (out, ⟨1, [440], 4, 2⟩) ∧
        out.length = ([1, 2] : List ℚ).length :=
  ⟨by simp, by norm_num, by norm_num, by norm_num, by norm_num, by norm_num,
    c2_output_length_eq_input [1, 2] 8 ⟨1, [440], 4, 2⟩ (by simp)
      (by norm_num) (by norm_num) (by norm_num) (by norm_num) (by norm_num)⟩

/-- Folding `betterLag` keeps a lag that is the old accumulator or a list
member, with autocorrelation at least every candidate seen. -/
theorem foldl_betterLag (x : List ℚ) :
    ∀ (ls : List ℕ) (b : ℕ),
      (ls.foldl (betterLag x) b = b ∨ ls.foldl (betterLag x) b ∈ ls) ∧
      autocorr x b ≤ autocorr x (ls.foldl (betterLag x) b) ∧
      ∀ l ∈ ls, autocorr x l ≤ autocorr x (ls.foldl (betterLag x) b) := by
  intro ls
  induction ls with
  | nil => intro b; exact ⟨Or.inl rfl, le_refl _, by simp⟩
  | cons a tl ih =>
      intro b
      simp only [List.foldl_cons]
      rcases ih (betterLag x b a) with ⟨hmem, hacc, hall⟩
      have hba : autocorr x b ≤ autocorr x (betterLag x b a) ∧
          autocorr x a ≤ autocorr x (betterLag x b a) := by
        unfold betterLag
        split
        · rename_i hlt
          exact ⟨le_of_lt hlt, le_refl _⟩
        · rename_i hlt
          exact ⟨le_refl _, le_of_not_lt hlt⟩
      have hba_mem : betterLag x b a = b ∨ betterLag x b a = a := by
        unfold betterLag
        split
        · exact Or.inr rfl
        · exact Or.inl rfl
      refine ⟨?_, le_trans hba.1 hacc, ?_⟩
      · rcases hmem with h | h
        · rcases hba_mem with h2 | h2
          · exact Or.inl (h.trans h2)
          · exact Or.inr (by rw [h, h2]; exact List.mem_cons_self a tl)
        · exact Or.inr (List.mem_cons_of_mem a h)
      · intro l hl
        rcases List.mem_cons.mp hl with rfl | hl'
        · exact le_trans hba.2 hacc
        · exact hall l hl'

/-- A `some` result of `bestLag` is a list member that maximizes the
autocorrelation over the list. -/
theorem bestLag_some (x : List ℚ) (ls : List ℕ) (r : ℕ)
    (h : bestLag x ls = some r) :
    r ∈ ls ∧ ∀ l ∈ ls, autocorr x l ≤ autocorr x r := by
  cases ls with
  | nil => exact absurd h (by simp [bestLag])
  | cons a tl =>
      have hr : tl.foldl (betterLag x) a = r := by
        have := h
        unfold bestLag at this
        exact Option.some_injective _ this
      rcases foldl_betterLag x tl a with ⟨hmem, hacc, hall⟩
      rw [hr] at hmem hacc hall
      constructor
      · rcases hmem with h2 | h2
        · rw [h2]; exact List.mem_cons_self a tl
        · exact List.mem_cons_of_mem a h2
      · intro l hl
        rcases List.mem_cons.mp hl with rfl | hl'
        · exact hacc
        · exact hall l hl'

/-- `bestLag` returns `none` exactly on the empty candidate list. -/
theorem bestLag_none (x : List ℚ) (ls : List ℕ) :
    bestLag x ls = none ↔ ls = [] := by
  cases ls <;> simp [bestLag]

/-- Membership in the candidate list is exactly the qualification
predicate. -/
theorem mem_candidateLags (x : List ℚ) (sr l : ℕ) :
    l ∈ candidateLags x sr ↔ Qualifies x sr l := by
  unfold candidateLags
  rw [List.mem_filter, List.mem_range'_1, decide_eq_true_iff]
  constructor
  · rintro ⟨-, hq⟩
    exact hq
  · intro hq
    have h1 := hq.1
    have h2 := hq.2.1
    exact ⟨⟨h1, by omega⟩, hq⟩

/-- C6.  For every frame and sample rate: if the detector reports a
frequency, it is `sampleRate / lag` for a lag in the plausible 50–1500 Hz
range that is a local autocorrelation maximum above the
`0.1 * max(autocorrelation)` threshold and of maximal height among all such
lags; and the detector reports unvoiced (`none`) exactly when no lag
qualifies. -/
theorem c6_detector_peak_selection (x : List ℚ) (sr : ℕ) :
    (∀ f, detectPitch x sr = some f →
      ∃ l, Qualifies x sr l ∧ f = (sr : ℚ) / (l : ℚ) ∧
        ∀ m, Qualifies x sr m → autocorr x m ≤ autocorr x l) ∧
    (detectPitch x sr = none ↔ ∀ l, ¬Qualifies x sr l) := by
  constructor
  · intro f hf
    unfold detectPitch at hf
    cases hbl : bestLag x (candidateLags x sr) with
    | none => rw [hbl] at hf; exact absurd hf (by simp)
    | some l =>
        rw [hbl] at hf
        have hfl : (sr : ℚ) / (l : ℚ) = f := by
          simpa using hf
        rcases bestLag_some x _ l hbl with ⟨hmem, hmax⟩
        exact ⟨l, (mem_candidateLags x sr l).mp hmem, hfl.symm,
          fun m hm => hmax m ((mem_candidateLags x sr m).mpr hm)⟩
  · unfold detectPitch
    rw [Option.map_eq_none', bestLag_none]
    constructor
    · intro hnil l hq
      have hmem := (mem_candidateLags x sr l).mpr hq
      rw [hnil] at hmem
      exact absurd hmem (List.not_mem_nil l)
    · intro hall
      cases hcl : candidateLags x sr with
      | nil => rfl
      | cons a tl =>
          exfalso
          exact hall a ((mem_candidateLags x sr a).mp
            (hcl ▸ List.mem_cons_self a tl))

/-- Monotone access into a strictly sorted table (non-strict form). -/
theorem pairwise_getD_le {t : List ℚ} (ht : List.Pairwise (· < ·) t)
    {i j : ℕ} (hij : i ≤ j) (hj : j < t.length) :
    t.getD i 0 ≤ t.getD j 0 := by
  rcases eq_or_lt_of_le hij with rfl | hlt
  · exact le_refl _
  · have hi : i < t.length := lt_trans hlt hj
    rw [List.getD_eq_getElem?_getD, List.getD_eq_getElem?_getD,
      List.getElem?_eq_getElem hi, List.getElem?_eq_getElem hj]
    simpa using le_of_lt (List.pairwise_iff_get.mp ht ⟨i, hi⟩ ⟨j, hj⟩ hlt)

/-- Monotone access into a strictly sorted table (strict form). -/
theorem pairwise_getD_lt {t : List ℚ} (ht : List.Pairwise (· < ·) t)
    {i j : ℕ} (hij : i < j) (hj : j < t.length) :
    t.getD i 0 < t.getD j 0 := by
  have hi : i < t.length := lt_trans hij hj
  rw [List.getD_eq_getElem?_getD, List.getD_eq_getElem?_getD,
    List.getElem?_eq_getElem hi, List.getElem?_eq_getElem hj]
  simpa using List.pairwise_iff_get.mp ht ⟨i, hi⟩ ⟨j, hj⟩ hij

/-- The binary-search loop invariant: starting from a window whose left part
is known `≤ f` and right part known `> f`, `lowerCount` lands on the
partition point of the sorted table. -/
theorem lowerCount_spec (t : List ℚ) (f : ℚ)
    (ht : List.Pairwise (· < ·) t) :
    ∀ (n lo hi : ℕ), hi - lo ≤ n → lo ≤ hi → hi ≤ t.length →
      (∀ i, i < lo → t.getD i 0 ≤ f) →
      (∀ i, hi ≤ i → i < t.length → f < t.getD i 0) →
      lo ≤ lowerCount t f lo hi ∧ lowerCount t f lo hi ≤ hi ∧
      (∀ i, i < lowerCount t f lo hi → t.getD i 0 ≤ f) ∧
      (∀ i, lowerCount t f lo hi ≤ i → i < t.length → f < t.getD i 0) := by
  intro n
  induction n with
  | zero =>
      intro lo hi hn hle hlen hlow hhigh
      have heq : lo = hi := by omega
      rw [lowerCount, dif_neg (by omega)]
      exact ⟨le_refl lo, by omega, hlow, by rw [heq]; exact hhigh⟩
  | succ n ih =>
      intro lo hi hn hle hlen hlow hhigh
      rw [lowerCount]
      split
      · rename_i hlt
        split
        · rename_i hmid
          have hmidlen : (lo + hi) / 2 < t.length := by omega
          have hlow' : ∀ i, i < (lo + hi) / 2 + 1 → t.getD i 0 ≤ f := by
            intro i hi'
            rcases Nat.lt_or_ge i lo with h' | h'
            · exact hlow i h'
            · exact le_trans (pairwise_getD_le ht (by omega) hmidlen) hmid
          rcases ih ((lo + hi) / 2 + 1) hi (by omega) (by omega) hlen hlow'
              hhigh with ⟨h1, h2, h3, h4⟩
          exact ⟨by omega, h2, h3, h4⟩
        · rename_i hmid
          have hfm : f < t.getD ((lo + hi) / 2) 0 := lt_of_not_ge hmid
          have hhigh' : ∀ i, (lo + hi) / 2 ≤ i → i < t.length →
              f < t.getD i 0 := by
            intro i hi1 hi2
            rcases eq_or_lt_of_le hi1 with rfl | hi1'
            · exact hfm
            · exact lt_of_lt_of_le hfm (pairwise_getD_le ht (by omega) hi2)
          rcases ih lo ((lo + hi) / 2) (by omega) (by omega) (by omega) hlow
              hhigh' with ⟨h1, h2, h3, h4⟩
          exact ⟨h1, by omega, h3, h4⟩
      · rename_i hge
        exact ⟨le_refl lo, by omega, hlow, by
          intro i hi1 hi2
          exact hhigh i (by omega) hi2⟩

/-- The partition point of a sorted table: everything before it is `≤ f`,
everything from it on is `> f`. -/
theorem lowerCount_main (t : List ℚ) (f : ℚ)
    (ht : List.Pairwise (· < ·) t) :
    lowerCount t f 0 t.length ≤ t.length ∧
    (∀ i, i < lowerCount t f 0 t.length → t.getD i 0 ≤ f) ∧
    (∀ i, lowerCount t f 0 t.length ≤ i → i < t.length →
      f < t.getD i 0) := by
  rcases lowerCount_spec t f ht t.length 0 t.length (by omega) (by omega)
      (le_refl _) (by omega) (by omega) with ⟨-, h2, h3, h4⟩
  exact ⟨h2, h3, h4⟩

/-- C3.  For every strictly increasing table and every frequency strictly
between the table's first and last entries, `nearestScale` — the
binary-search snap — returns a table entry that is at least as close to the
frequency as every entry, any tie being broken toward the lower-frequency
entry. -/
theorem c3_binary_search_nearest (t : List ℚ) (f : ℚ)
    (ht : List.Pairwise (· < ·) t) (hmin : t.getD 0 0 < f)
    (hmax : f < t.getD (t.length - 1) 0) :
    nearestScale t f ∈ t ∧
      ∀ j, j < t.length →
        |f - nearestScale t f| < |f - t.getD j 0| ∨
          (|f - nearestScale t f| = |f - t.getD j 0| ∧
            nearestScale t f ≤ t.getD j 0) := by
  have hne : t ≠ [] := by
    rintro rfl
    simp at hmin hmax
    linarith
  have hlen1 : 1 ≤ t.length := by
    cases t with
    | nil => exact absurd rfl hne
    | cons a tl => simp
  rcases lowerCount_main t f ht with ⟨hple, hbelow, habove⟩
  have hp0 : lowerCount t f 0 t.length ≠ 0 := by
    intro h0
    exact absurd (habove 0 (by omega) (by omega)) (not_lt.mpr (le_of_lt hmin))
  have hpn : lowerCount t f 0 t.length ≠ t.length := by
    intro hn
    exact absurd (hbelow (t.length - 1) (by omega))
      (not_le.mpr hmax)
  set p := lowerCount t f 0 t.length with hp
  have hp1 : 1 ≤ p := by omega
  have hpl : p < t.length := by omega
  have ha : t.getD (p - 1) 0 ≤ f := hbelow (p - 1) (by omega)
  have hb : f < t.getD p 0 := habove p (le_refl p) hpl
  have hr : nearestScale t f =
      (if f - t.getD (p - 1) 0 ≤ t.getD p 0 - f then t.getD (p - 1) 0
        else t.getD p 0) := by
    unfold nearestScale
    rw [← hp, if_neg hp0, if_neg hpn]
  have hmem : nearestScale t f ∈ t := by
    rw [hr]
    split
    · rw [List.getD_eq_getElem?_getD,
        List.getElem?_eq_getElem (by omega : p - 1 < t.length)]
      exact List.getElem_mem _
    · rw [List.getD_eq_getElem?_getD, List.getElem?_eq_getElem hpl]
      exact List.getElem_mem _
  refine ⟨hmem, ?_⟩
  intro j hj
  rw [hr]
  split
  · rename_i hcmp
    have habs : |f - t.getD (p - 1) 0| = f - t.getD (p - 1) 0 :=
      abs_of_nonneg (by linarith)
    rcases Nat.lt_or_ge j p with hjp | hjp
    · have hjle : t.getD j 0 ≤ f := hbelow j hjp
      have habsj : |f - t.getD j 0| = f - t.getD j 0 :=
        abs_of_nonneg (by linarith)
      have hja : t.getD j 0 ≤ t.getD (p - 1) 0 :=
        pairwise_getD_le ht (by omega) (by omega)
      rcases eq_or_lt_of_le hja with heq | hlt
      · exact Or.inr ⟨by rw [habs, habsj, heq], by rw [heq]⟩
      · exact Or.inl (by rw [habs, habsj]; linarith)
    · have hjgt : f < t.getD j 0 := habove j hjp hj
      have habsj : |f - t.getD j 0| = t.getD j 0 - f := by
        rw [abs_of_nonpos (by linarith)]
        ring
      have hjb : t.getD p 0 ≤ t.getD j 0 := pairwise_getD_le ht hjp hj
      rcases eq_or_lt_of_le (by linarith : f - t.getD (p - 1) 0 ≤
          t.getD j 0 - f) with heq | hlt
      · exact Or.inr ⟨by rw [habs, habsj, heq], by linarith⟩
      · exact Or.inl (by rw [habs, habsj]; linarith)
  · rename_i hcmp
    push_neg at hcmp
    have habs : |f - t.getD p 0| = t.getD p 0 - f := by
      rw [abs_of_nonpos (by linarith)]
      ring
    rcases Nat.lt_or_ge j p with hjp | hjp
    · have hjle : t.getD j 0 ≤ f := hbelow j hjp
      have habsj : |f - t.getD j 0| = f - t.getD j 0 :=
        abs_of_nonneg (by linarith)
      have hja : t.getD j 0 ≤ t.getD (p - 1) 0 :=
        pairwise_getD_le ht (by omega) (by omega)
      exact Or.inl (by rw [habs, habsj]; linarith)
    · have hjb : t.getD p 0 ≤ t.getD j 0 := pairwise_getD_le ht hjp hj
      have hjgt : f < t.getD j 0 := habove j hjp hj
      have habsj : |f - t.getD j 0| = t.getD j 0 - f := by
        rw [abs_of_nonpos (by linarith)]
        ring
      rcases eq_or_lt_of_le hjb with heq | hlt
      · exact Or.inr ⟨by rw [habs, habsj, heq], by linarith⟩
      · exact Or.inl (by rw [habs, habsj]; linarith)

/-- C3 witness: the table `[1, 2, 7]` and the frequency 3, whose nearest
entry is 2. -/
theorem c3_binary_search_nearest_witness :
    List.Pairwise (· < ·) ([1, 2, 7] : List ℚ) ∧
      ([1, 2, 7] : List ℚ).getD 0 0 < 3 ∧
      (3 : ℚ) < ([1, 2, 7] : List ℚ).getD (([1, 2, 7] : List ℚ).length - 1) 0 ∧
      (nearestScale [1, 2, 7] 3 ∈ ([1, 2, 7] : List ℚ) ∧
        ∀ j, j < ([1, 2, 7] : List ℚ).length →
          |3 - nearestScale [1, 2, 7] 3| < |3 - ([1, 2, 7] : List ℚ).getD j 0| ∨
            (|3 - nearestScale [1, 2, 7] 3| =
                |3 - ([1, 2, 7] : List ℚ).getD j 0| ∧
              nearestScale [1, 2, 7] 3 ≤ ([1, 2, 7] : List ℚ).getD j 0)) :=
  ⟨by decide, by decide, by decide,
    c3_binary_search_nearest [1, 2, 7] 3 (by decide) (by decide) (by decide)⟩

/-- A detected frequency is positive: it is `sampleRate / lag` with a
positive sample rate and a lag of at least one. -/
theorem detectPitch_pos {x : List ℚ} {sr : ℕ} (hsr : sr ≠ 0) {f : ℚ}
    (hf : detectPitch x sr = some f) : 0 < f := by
  unfold detectPitch at hf
  cases hbl : bestLag x (candidateLags x sr) with
  | none => rw [hbl] at hf; exact absurd hf (by simp)
  | some l =>
      rw [hbl] at hf
      have hfl : (sr : ℚ) / (l : ℚ) = f := by simpa using hf
      rcases bestLag_some x _ l hbl with ⟨hmem, -⟩
      have hq := (mem_candidateLags x sr l).mp hmem
      have hl1 : 1 ≤ l := le_trans (le_max_left 1 _) hq.1
      have hl0 : 0 < l := hl1
      rw [← hfl]
      exact div_pos (by exact_mod_cast Nat.pos_of_ne_zero hsr)
        (by exact_mod_cast hl0)

/-- At zero strength the per-frame shift ratio is one: the blend returns the
detected frequency itself, and unvoiced frames already carry ratio one. -/
theorem frameRatio_strength_zero (x : List ℚ) (sr : ℕ) (cfg : EngineConfig)
    (hs : cfg.strength = 0) (hsr : sr ≠ 0) (k : ℕ) :
    frameRatio x sr cfg k = 1 := by
  cases hd : detectPitch (frameAt x cfg.frameLength cfg.hopLength k) sr with
  | none => unfold frameRatio; rw [hd]
  | some f =>
      have hf : 0 < f := detectPitch_pos hsr hd
      unfold frameRatio
      rw [hd]
      show quantize f cfg.table cfg.strength / f = 1
      unfold quantize
      split
      · exact div_self (ne_of_gt hf)
      · rw [hs, zero_mul, add_zero]
        exact div_self (ne_of_gt hf)

/-- Linear interpolation at an integer position returns that sample. -/
theorem interpAt_nat (x : List ℚ) (n : ℕ) :
    interpAt x (n : ℚ) = x.getD n 0 := by
  unfold interpAt
  rw [Int.floor_natCast, Int.toNat_natCast]
  simp

/-- Resampling a frame to its own length is the identity. -/
theorem resampleTo_self (x : List ℚ) : resampleTo x x.length = x := by
  apply List.ext_getElem?
  intro n
  unfold resampleTo
  rw [List.getElem?_map]
  rcases Nat.lt_or_ge n x.length with h | h
  · rw [List.getElem?_range h, Option.map_some']
    have hlen : (x.length : ℚ) ≠ 0 := by
      intro h0
      rw [Nat.cast_eq_zero] at h0
      omega
    have hpos : (n : ℚ) * (x.length : ℚ) / (x.length : ℚ) = (n : ℚ) := by
      rw [mul_div_assoc, div_self hlen, mul_one]
    rw [hpos, interpAt_nat, List.getElem?_eq_getElem h,
      List.getD_eq_getElem?_getD, List.getElem?_eq_getElem h]
    rfl
  · rw [List.getElem?_eq_none (by simpa using h), Option.map_none',
      List.getElem?_eq_none h]

/-- A shift ratio of one leaves the frame unchanged. -/
theorem pitchShiftFrame_one (frame : List ℚ) :
    pitchShiftFrame frame 1 = frame := by
  unfold pitchShiftFrame shiftLength
  rw [div_one, Int.floor_natCast, Int.toNat_natCast]
  by_cases h : frame.length = 0
  · rw [if_pos h]
  · rw [if_neg h, resampleTo_self]

/-- A frame sample is the buffer sample at the hop offset. -/
theorem frameAt_getD (x : List ℚ) (fl hop k j : ℕ)
    (hj : j < (frameAt x fl hop k).length) :
    (frameAt x fl hop k).getD j 0 = x.getD (k * hop + j) 0 := by
  have hjfl : j < fl := by
    have := hj
    simp only [frameAt, List.length_take, List.length_drop] at this
    omega
  unfold frameAt
  rw [List.getD_eq_getElem?_getD, List.getD_eq_getElem?_getD,
    List.getElem?_take, if_pos hjfl, List.getElem?_drop]

/-- At zero strength every frame passes through unshifted. -/
theorem shiftedFrame_strength_zero (x : List ℚ) (sr : ℕ)
    (cfg : EngineConfig) (hs : cfg.strength = 0) (hsr : sr ≠ 0) (k : ℕ) :
    shiftedFrame x sr cfg k = frameAt x cfg.frameLength cfg.hopLength k := by
  unfold shiftedFrame
  rw [frameRatio_strength_zero x sr cfg hs hsr k, pitchShiftFrame_one]

/-- At zero strength, frame `k`'s accumulation contribution at sample `i` is
its window contribution times the input sample there. -/
theorem contrib_strength_zero (x : List ℚ) (sr : ℕ) (cfg : EngineConfig)
    (hs : cfg.strength = 0) (hsr : sr ≠ 0) (k i : ℕ) :
    contrib x sr cfg k i = normContrib x sr cfg k i * x.getD i 0 := by
  unfold contrib normContrib
  rw [shiftedFrame_strength_zero x sr cfg hs hsr k]
  split
  · rename_i h
    rw [frameAt_getD x _ _ k (i - k * cfg.hopLength) (by omega)]
    rw [show k * cfg.hopLength + (i - k * cfg.hopLength) = i from by omega]
  · rw [zero_mul]

/-- At zero strength the accumulation buffer is the window-sum buffer times
the input sample, at every index. -/
theorem olaAcc_strength_zero (x : List ℚ) (sr : ℕ) (cfg : EngineConfig)
    (hs : cfg.strength = 0) (hsr : sr ≠ 0) (i : ℕ) :
    olaAcc x sr cfg i = olaNorm x sr cfg i * x.getD i 0 := by
  unfold olaAcc olaNorm
  rw [Finset.sum_mul]
  exact Finset.sum_congr rfl fun k _ =>
    contrib_strength_zero x sr cfg hs hsr k i

/-- Reading the reconstructed buffer at an in-range index. -/
theorem olaOut_getD (x : List ℚ) (sr : ℕ) (cfg : EngineConfig) (i : ℕ)
    (hi : i < x.length) :
    (olaOut x sr cfg).getD i 0 =
      if olaNorm x sr cfg i = 0 then 0
      else olaAcc x sr cfg i / olaNorm x sr cfg i := by
  unfold olaOut
  rw [List.getD_eq_getElem?_getD, List.getElem?_map, List.getElem?_range hi]
  rfl

/-- C1 amended.  At zero strength every shift ratio is one and the pipeline
through overlap-add reproduces the input exactly at every index whose window
normalization is nonzero, and outputs zero at the (frame-edge) indices whose
window normalization vanishes; `process` then applies the post filter to
that reconstruction — the post filter, not the pitch pipeline, is the sole
source of deviation, and it is not bounded by a small per-sample
tolerance. -/
theorem c1_zero_strength_identity (x : List ℚ) (sr : ℕ) (cfg : EngineConfig)
    (hs : cfg.strength = 0) (hx : x ≠ []) (hsr : sr ≠ 0)
    (hf : cfg.frameLength ≠ 0) (hh : cfg.hopLength ≠ 0) :
    process x sr cfg = .ok (postFilter (olaOut x sr cfg), cfg) ∧
    ∀ i, i < x.length →
      (olaNorm x sr cfg i ≠ 0 →
        (olaOut x sr cfg).getD i 0 = x.getD i 0) ∧
      (olaNorm x sr cfg i = 0 → (olaOut x sr cfg).getD i 0 = 0) := by
  refine ⟨process_ok x sr cfg hx hsr (by simp [hs]) (by simp [hs]) hf hh, ?_⟩
  intro i hi
  constructor
  · intro hnz
    rw [olaOut_getD x sr cfg i hi, if_neg hnz,
      olaAcc_strength_zero x sr cfg hs hsr i]
    exact mul_div_cancel_left₀ _ hnz
  · intro hz
    rw [olaOut_getD x sr cfg i hi, if_pos hz]

/-- C1 witness: a concrete two-sample run of the amended statement. -/
theorem c1_zero_strength_identity_witness :
    (⟨0, [220, 440], 2, 1⟩ : EngineConfig).strength = 0 ∧
      ([1, 1] : List ℚ) ≠ [] ∧ (8 : ℕ) ≠ 0 ∧
      (⟨0, [220, 440], 2, 1⟩ : EngineConfig).frameLength ≠ 0 ∧
      (⟨0, [220, 440], 2, 1⟩ : EngineConfig).hopLength ≠ 0 ∧
      (process [1, 1] 8 ⟨0, [220, 440], 2, 1⟩ =
          .ok (postFilter (olaOut [1, 1] 8 ⟨0, [220, 440], 2, 1⟩),
            ⟨0, [220, 440], 2, 1⟩) ∧
        ∀ i, i < ([1, 1] : List ℚ).length →
          (olaNorm [1, 1] 8 ⟨0, [220, 440], 2, 1⟩ i ≠ 0 →
            (olaOut [1, 1] 8 ⟨0, [220, 440], 2, 1⟩).getD i 0 =
              ([1, 1] : List ℚ).getD i 0) ∧
          (olaNorm [1, 1] 8 ⟨0, [220, 440], 2, 1⟩ i = 0 →
            (olaOut [1, 1] 8 ⟨0, [220, 440], 2, 1⟩).getD i 0 = 0)) :=
  ⟨rfl, by simp, by norm_num, by norm_num, by norm_num,
    c1_zero_strength_identity [1, 1] 8 ⟨0, [220, 440], 2, 1⟩ rfl (by simp)
      (by norm_num) (by norm_num) (by norm_num)⟩


/-- The degenerate one-sample window is the constant one. -/
theorem window_one (j : ℕ) : window 1 j = 1 := by
  unfold window
  rw [if_pos (by norm_num)]

/-- The triangular window vanishes at the left frame edge. -/
theorem window_left_edge {m : ℕ} (hm : 2 ≤ m) : window m 0 = 0 := by
  unfold window
  rw [if_neg (by omega)]
  have hm2 : (2 : ℚ) ≤ (m : ℚ) := by exact_mod_cast hm
  have habs : |2 * ((0 : ℕ) : ℚ) - ((m : ℚ) - 1)| = (m : ℚ) - 1 := by
    rw [abs_of_nonpos (by push_cast; linarith)]
    push_cast
    ring
  rw [habs, div_self (by linarith)]
  ring

/-- The triangular window vanishes at the right frame edge. -/
theorem window_right_edge {m : ℕ} (hm : 2 ≤ m) : window m (m - 1) = 0 := by
  unfold window
  rw [if_neg (by omega)]
  have hm2 : (2 : ℚ) ≤ (m : ℚ) := by exact_mod_cast hm
  have hcast : (((m - 1 : ℕ)) : ℚ) = (m : ℚ) - 1 := by
    have h1 : 1 ≤ m := by omega
    push_cast [h1]
    ring
  have habs : |2 * (((m - 1 : ℕ)) : ℚ) - ((m : ℚ) - 1)| = (m : ℚ) - 1 := by
    rw [hcast, abs_of_nonneg (by linarith)]
    ring
  rw [habs, div_self (by linarith)]
  ring

/-- C1 counterexample.  The all-ones two-sample buffer at strength zero:
the first output sample of `process` is 1/4 while the input sample is 1 —
a deviation of 3/4 on samples normalized to `[-1, 1]`, beyond any small
numerical tolerance (the overlap-add window vanishes at the buffer edge and
the post filter then smears the zeroed edge inward), so zero strength is
not a samplewise identity of `process`. -/
theorem c1_zero_strength_counterexample :
    process [1, 1] 8 ⟨0, [220, 440], 2, 1⟩ =
      .ok ([1 / 4, 3 / 4], ⟨0, [220, 440], 2, 1⟩) ∧
    (1 / 2 : ℚ) ≤ |(1 / 4 : ℚ) - 1| := by
  have hsf0 : shiftedFrame [1, 1] 8 ⟨0, [220, 440], 2, 1⟩ 0 = [1, 1] := by
    rw [shiftedFrame_strength_zero _ _ _ rfl (by norm_num)]
    rfl
  have hsf1 : shiftedFrame [1, 1] 8 ⟨0, [220, 440], 2, 1⟩ 1 = [1] := by
    rw [shiftedFrame_strength_zero _ _ _ rfl (by norm_num)]
    rfl
  have hn0 : olaNorm [1, 1] 8 ⟨0, [220, 440], 2, 1⟩ 0 = 0 := by
    unfold olaNorm
    rw [show numFrames ([1, 1] : List ℚ).length
        (⟨0, [220, 440], 2, 1⟩ : EngineConfig).hopLength = 2 from rfl]
    rw [Finset.sum_range_succ, Finset.sum_range_succ, Finset.sum_range_zero]
    unfold normContrib
    rw [hsf0, hsf1]
    rw [show ([1, 1] : List ℚ).length = 2 from rfl,
      show ([1] : List ℚ).length = 1 from rfl]
    norm_num
    rw [window_left_edge (by norm_num)]
  have hn1 : olaNorm [1, 1] 8 ⟨0, [220, 440], 2, 1⟩ 1 = 1 := by
    unfold olaNorm
    rw [show numFrames ([1, 1] : List ℚ).length
        (⟨0, [220, 440], 2, 1⟩ : EngineConfig).hopLength = 2 from rfl]
    rw [Finset.sum_range_succ, Finset.sum_range_succ, Finset.sum_range_zero]
    unfold normContrib
    rw [hsf0, hsf1]
    rw [show ([1, 1] : List ℚ).length = 2 from rfl,
      show ([1] : List ℚ).length = 1 from rfl]
    norm_num
    rw [(window_right_edge (by norm_num) : window 2 1 = 0), window_one]
    norm_num
  have hacc1 : olaAcc [1, 1] 8 ⟨0, [220, 440], 2, 1⟩ 1 = 1 := by
    unfold olaAcc
    rw [show numFrames ([1, 1] : List ℚ).length
        (⟨0, [220, 440], 2, 1⟩ : EngineConfig).hopLength = 2 from rfl]
    rw [Finset.sum_range_succ, Finset.sum_range_succ, Finset.sum_range_zero]
    unfold contrib
    rw [hsf0, hsf1]
    rw [show ([1, 1] : List ℚ).length = 2 from rfl,
      show ([1] : List ℚ).length = 1 from rfl]
    norm_num
    rw [(window_right_edge (by norm_num) : window 2 1 = 0), window_one]
    norm_num [show ([1] : List ℚ).getD 0 0 = 1 from rfl]
  have hpre : olaOut [1, 1] 8 ⟨0, [220, 440], 2, 1⟩ = [0, 1] := by
    unfold olaOut
    rw [show List.range (([1, 1] : List ℚ).length) = [0, 1] from rfl]
    simp only [List.map_cons, List.map_nil]
    rw [hn0, hn1, hacc1]
    norm_num
  have hlow : lowPass [0, 1] = [1 / 4, 3 / 4] := by
    unfold lowPass
    rw [show List.range (([0, 1] : List ℚ).length) = [0, 1] from rfl]
    simp only [List.map_cons, List.map_nil]
    norm_num [min_def, show ([0, 1] : List ℚ).getD 0 0 = 0 from rfl,
      show ([0, 1] : List ℚ).getD 1 0 = 1 from rfl]
  have hpeak : peakOf [1 / 4, 3 / 4] = 3 / 4 := by
    unfold peakOf
    simp only [List.foldl_cons, List.foldl_nil]
    rw [abs_of_nonneg (by norm_num : (0 : ℚ) ≤ 1 / 4),
      abs_of_nonneg (by norm_num : (0 : ℚ) ≤ 3 / 4)]
    rw [max_eq_right (by norm_num : (0 : ℚ) ≤ 1 / 4),
      max_eq_right (by norm_num : (1 / 4 : ℚ) ≤ 3 / 4)]
  constructor
  · rw [process_ok [1, 1] 8 ⟨0, [220, 440], 2, 1⟩ (by simp) (by norm_num)
      (by norm_num) (by norm_num) (by norm_num) (by norm_num)]
    rw [hpre]
    unfold postFilter
    rw [hlow]
    unfold peakNormalize
    rw [hpeak, if_pos (by norm_num)]
  · rw [abs_of_nonpos (by norm_num)]
    norm_num


/-- C4.  For every valid input and frame index whose truncated resample
target length degenerates to zero, the engine keeps the original frame
unchanged as that frame's shifted output, and the whole `process` call still
succeeds — per-frame resampling failure is never fatal. -/
theorem c4_resample_fallback (x : List ℚ) (sr : ℕ) (cfg : EngineConfig)
    (k : ℕ) (hx : x ≠ []) (hsr : sr ≠ 0) (h0 : 0 ≤ cfg.strength)
    (h1 : cfg.strength ≤ 1) (hf : cfg.frameLength ≠ 0)
    (hh : cfg.hopLength ≠ 0)
    (hdeg : (shiftLength (frameAt x cfg.frameLength cfg.hopLength k).length
      (frameRatio x sr cfg k)).toNat = 0) :
    shiftedFrame x sr cfg k = frameAt x cfg.frameLength cfg.hopLength k ∧
    ∃ out, process x sr cfg = .ok (out, cfg) := by
  constructor
  · unfold shiftedFrame pitchShiftFrame
    rw [if_pos hdeg]
  · exact ⟨_, process_ok x sr cfg hx hsr h0 h1 hf hh⟩

/-- C4 witness: the frame `[1, -1, 1]` at 100 Hz sample rate detects 50 Hz,
snaps to the lone 1000 Hz table entry at full strength, so the shift ratio
20 truncates the resample target to zero samples — and the engine keeps the
original frame and the call succeeds. -/
theorem c4_resample_fallback_witness :
    (shiftLength (frameAt [1, -1, 1] 3 2 0).length
        (frameRatio [1, -1, 1] 100 ⟨1, [1000], 3, 2⟩ 0)).toNat = 0 ∧
      (shiftedFrame [1, -1, 1] 100 ⟨1, [1000], 3, 2⟩ 0 =
          frameAt [1, -1, 1] 3 2 0 ∧
        ∃ out, process [1, -1, 1] 100 ⟨1, [1000], 3, 2⟩ =
          .ok (out, ⟨1, [1000], 3, 2⟩)) := by
  have h0 : autocorr [1, -1, 1] 0 = 3 := by
    unfold autocorr
    norm_num [Finset.sum_range_succ,
      show ([1, -1, 1] : List ℚ).getD 0 0 = 1 from rfl,
      show ([1, -1, 1] : List ℚ).getD 1 0 = -1 from rfl,
      show ([1, -1, 1] : List ℚ).getD 2 0 = 1 from rfl]
  have h1 : autocorr [1, -1, 1] 1 = -2 := by
    unfold autocorr
    norm_num [Finset.sum_range_succ,
      show ([1, -1, 1] : List ℚ).getD 0 0 = 1 from rfl,
      show ([1, -1, 1] : List ℚ).getD 1 0 = -1 from rfl,
      show ([1, -1, 1] : List ℚ).getD 2 0 = 1 from rfl]
  have h2 : autocorr [1, -1, 1] 2 = 1 := by
    unfold autocorr
    norm_num [Finset.sum_range_succ,
      show ([1, -1, 1] : List ℚ).getD 0 0 = 1 from rfl,
      show ([1, -1, 1] : List ℚ).getD 2 0 = 1 from rfl]
  have h3 : autocorr [1, -1, 1] 3 = 0 := by
    unfold autocorr
    norm_num
  have hlagmin : lagMin 100 = 1 := by
    unfold lagMin
    rw [show ⌈(100 : ℕ) / (1500 : ℚ)⌉ = 1 from by norm_num [Int.ceil_eq_iff]]
    rfl
  have hlagmax : lagMax 100 = 2 := by
    unfold lagMax
    rw [show ⌊(100 : ℕ) / (50 : ℚ)⌋ = 2 from by norm_num]
    rfl
  have hacmax : acMax [1, -1, 1] = 3 := by
    unfold acMax
    rw [show List.range (([1, -1, 1] : List ℚ).length) = [0, 1, 2] from rfl]
    simp only [List.map_cons, List.map_nil, List.foldl_cons, List.foldl_nil]
    rw [h0, h1, h2, max_self,
      max_eq_left (by norm_num : (-2 : ℚ) ≤ 3),
      max_eq_left (by norm_num : (1 : ℚ) ≤ 3)]
  have hq1 : ¬Qualifies [1, -1, 1] 100 1 := by
    unfold Qualifies IsAcPeak
    intro h
    have hpk := h.2.2.1.1
    rw [show (1 : ℕ) - 1 = 0 from rfl, h0, h1] at hpk
    norm_num at hpk
  have hq2 : Qualifies [1, -1, 1] 100 2 := by
    unfold Qualifies IsAcPeak
    rw [hlagmin, hlagmax, hacmax]
    rw [show (2 : ℕ) - 1 = 1 from rfl, show (2 : ℕ) + 1 = 3 from rfl,
      h1, h2, h3]
    norm_num
  have hcand : candidateLags [1, -1, 1] 100 = [2] := by
    unfold candidateLags
    rw [hlagmin, hlagmax]
    rw [show (2 + 1 - 1 : ℕ) = 2 from rfl]
    rw [show List.range' 1 2 = [1, 2] from rfl]
    rw [List.filter_cons, List.filter_cons, List.filter_nil]
    rw [decide_eq_false hq1, decide_eq_true hq2]
    simp
  have hdetect : detectPitch [1, -1, 1] 100 = some 50 := by
    unfold detectPitch
    rw [hcand]
    rw [show bestLag [1, -1, 1] [2] = some 2 from rfl]
    rw [Option.map_some']
    norm_num
  have hlc : lowerCount [1000] 50 0 1 = 0 := by
    rw [lowerCount]
    rw [dif_pos (by norm_num : (0 : ℕ) < 1)]
    rw [show ((0 + 1) / 2 : ℕ) = 0 from rfl]
    rw [show ([1000] : List ℚ).getD 0 0 = 1000 from rfl]
    rw [if_neg (by norm_num : ¬(1000 : ℚ) ≤ 50)]
    rw [lowerCount]
    rw [dif_neg (by norm_num : ¬(0 : ℕ) < 0)]
  have hnear : nearestScale [1000] 50 = 1000 := by
    unfold nearestScale
    rw [show ([1000] : List ℚ).length = 1 from rfl, hlc]
    norm_num [show ([1000] : List ℚ).getD 0 0 = 1000 from rfl]
  have hratio : frameRatio [1, -1, 1] 100 ⟨1, [1000], 3, 2⟩ 0 = 20 := by
    unfold frameRatio
    rw [show frameAt [1, -1, 1]
        (⟨1, [1000], 3, 2⟩ : EngineConfig).frameLength
        (⟨1, [1000], 3, 2⟩ : EngineConfig).hopLength 0 = [1, -1, 1] from rfl]
    rw [hdetect]
    show quantize 50 [1000] 1 / 50 = 20
    unfold quantize
    rw [if_neg (by simp), hnear]
    norm_num
  have hdeg : (shiftLength (frameAt [1, -1, 1] 3 2 0).length
      (frameRatio [1, -1, 1] 100 ⟨1, [1000], 3, 2⟩ 0)).toNat = 0 := by
    rw [hratio]
    rw [show (frameAt [1, -1, 1] 3 2 0).length = 3 from rfl]
    unfold shiftLength
    rw [show ⌊((3 : ℕ) : ℚ) / 20⌋ = 0 from by norm_num]
    rfl
  exact ⟨hdeg, c4_resample_fallback [1, -1, 1] 100 ⟨1, [1000], 3, 2⟩ 0
    (by simp) (by norm_num) (by norm_num) (by norm_num) (by norm_num)
    (by norm_num) hdeg⟩

end Quick
